import Mathlib

/-!
Verification of the OVS `seq-pool` sharded ID allocator (src/lib/seq-pool.c)
and the `llring` bounded lock-free ring (src/lib/llring.h and its
implementation file), as a shallow embedding in Lean 4.

Machine integers (`uint32_t`) are modelled as `Nat` with explicit reduction
modulo `2^32` wherever the C code can overflow.  Mutex operations are not
represented: the embedding gives each public operation its sequential
(atomic) semantics, which is the behaviour of the C code in any execution
in which the operation's critical sections are not interleaved with other
operations.  In this sequential model `ovs_mutex_trylock` always succeeds.
-/

namespace SeqPoolModel

/-- Modulus of `uint32_t` arithmetic. -/
def W : Nat := 2 ^ 32

/-- `SEQPOOL_C_SIZE`: capacity of a per-user ID cache. -/
def SEQPOOL_C_SIZE : Nat := 32

/-- `struct seq_pool_cache` (without the mutex, which the sequential model
does not represent): ring indices `head` and `tail` are `uint32_t` (kept
reduced modulo `W`), and `ids` is the backing array of `SEQPOOL_C_SIZE`
slots (`xcalloc` zero-initialises it). -/
structure SeqPoolCache where
  head : Nat
  tail : Nat
  ids : List Nat
  deriving Repr, DecidableEq, Inhabited

/-- `SEQPOOL_C_MASKED(u)`: `u & (SEQPOOL_C_SIZE - 1)`, i.e. `u % 32`. -/
def SEQPOOL_C_MASKED (u : Nat) : Nat := u % SEQPOOL_C_SIZE

/-- `SEQPOOL_C_EMPTY(c)`: `head == tail` (both stored reduced mod `W`). -/
def c_empty (c : SeqPoolCache) : Bool := c.head == c.tail

/-- `SEQPOOL_C_FULL(c)`. -/
def c_full (c : SeqPoolCache) : Bool :=
  !c_empty c && (SEQPOOL_C_MASKED c.head == SEQPOOL_C_MASKED c.tail)

/-- `SEQPOOL_C_ADD(c, u)`: store `u` at slot `head & 31` and increment the
`uint32_t` head. -/
def c_add (c : SeqPoolCache) (u : Nat) : SeqPoolCache :=
  { c with ids := c.ids.set (SEQPOOL_C_MASKED c.head) u,
           head := (c.head + 1) % W }

/-- `SEQPOOL_C_POP(c)`: read slot `tail & 31` and increment the `uint32_t`
tail; returns the value read together with the updated cache. -/
def c_pop (c : SeqPoolCache) : Nat × SeqPoolCache :=
  (c.ids.getD (SEQPOOL_C_MASKED c.tail) 0, { c with tail := (c.tail + 1) % W })

/-- Number of IDs currently held in a cache: the `uint32_t` difference
`head - tail`. -/
def csize (c : SeqPoolCache) : Nat := (c.head + W - c.tail) % W

/-- A cache as produced by `xcalloc` in `seq_pool_create`: all-zero. -/
def emptyCache : SeqPoolCache :=
  { head := 0, tail := 0, ids := List.replicate SEQPOOL_C_SIZE 0 }

/-- `struct seq_pool` (mutexes omitted): `cache` is the per-user cache
array (length `nb_user`), `free_ids` the shared list of free IDs in list
order (front of the `ovs_list` first). -/
structure SeqPool where
  next_id : Nat
  cache : List SeqPoolCache
  nb_user : Nat
  free_ids : List Nat
  base : Nat
  n_ids : Nat
  deriving Repr, DecidableEq, Inhabited

/-- `seq_pool_create(nb_user, base, n_ids)`.  The two `ovs_assert`
failures are modelled as `none`: `nb_user != 0` and
`base <= UINT32_MAX - n_ids` (all-`uint32_t` arithmetic; since
`n_ids <= UINT32_MAX`, the C subtraction equals the truncated natural
subtraction `W - 1 - n_ids`). -/
def seq_pool_create (nb_user base n_ids : Nat) : Option SeqPool :=
  if nb_user == 0 then none
  else if !(base ≤ W - 1 - n_ids) then none
  else some { next_id := base,
              cache := List.replicate nb_user emptyCache,
              nb_user := nb_user,
              free_ids := [],
              base := base,
              n_ids := n_ids }

/-- The refill loop from the shared free list in `seq_pool_new_id`:
`while (!SEQPOOL_C_FULL(cache) && !ovs_list_is_empty(&pool->free_ids))`
pop the front node and `SEQPOOL_C_ADD` its ID. -/
def refill_free (c : SeqPoolCache) : List Nat → SeqPoolCache × List Nat
  | [] => (c, [])
  | id :: rest =>
    if c_full c then (c, id :: rest)
    else refill_free (c_add c id) rest

/-- One step of the cursor refill loop, driven by the fuel
`stop - next`: as long as the fuel is positive, `next < stop` holds and
conversely, so this is exactly the loop
`while (!SEQPOOL_C_FULL(cache) && pool->next_id < pool->base + pool->n_ids)`.
The `uint32_t` increment `pool->next_id++` cannot wrap under the guard
`next < stop` with `stop < W`, so it is written as plain `next + 1`. -/
def refill_next_go (c : SeqPoolCache) (next : Nat) : Nat → SeqPoolCache × Nat
  | 0 => (c, next)
  | fuel + 1 =>
    if c_full c then (c, next)
    else refill_next_go (c_add c next) (next + 1) fuel

/-- The cursor refill loop of `seq_pool_new_id`; `stop` is the `uint32_t`
sum `pool->base + pool->n_ids`. -/
def refill_next (c : SeqPoolCache) (next stop : Nat) : SeqPoolCache × Nat :=
  refill_next_go c next (stop - next)

/-- One iteration of the steal loop of `seq_pool_new_id` at peer index
`i`: skip the caller's own index, skip empty peers, try-lock (which in the
sequential model always succeeds), re-check emptiness, then move one ID
from the peer to the caller's cache. -/
def steal_one (uid i : Nat) (caches : List SeqPoolCache) : List SeqPoolCache :=
  if i == uid then caches
  else
    let c2 := caches.getD i default
    if c_empty c2 then caches
    else
      -- ovs_mutex_trylock succeeds in the sequential model
      if c_empty c2 then caches
      else
        let p := c_pop c2
        let own := caches.getD uid default
        (caches.set i p.2).set uid (c_add own p.1)

/-- The steal loop of `seq_pool_new_id`: `for (i = 0; i < pool->nb_user; i++)`. -/
def steal_all (uid nb_user : Nat) (caches : List SeqPoolCache) : List SeqPoolCache :=
  (List.range nb_user).foldl (fun cs i => steal_one uid i cs) caches

/-- `seq_pool_new_id(pool, uid, id)`: returns the value stored through the
out-parameter (`some id` when the function returns true, `none` when it
returns false) together with the updated pool. -/
def seq_pool_new_id (p : SeqPool) (uid0 : Nat) : Option Nat × SeqPool :=
  let uid := uid0 % p.nb_user
  let cache := p.cache.getD uid default
  if !c_empty cache then
    let pr := c_pop cache
    (some pr.1, { p with cache := p.cache.set uid pr.2 })
  else
    let r1 := refill_free cache p.free_ids
    let r2 := refill_next r1.1 p.next_id ((p.base + p.n_ids) % W)
    let caches0 := p.cache.set uid r2.1
    let caches1 := if c_empty r2.1 then steal_all uid p.nb_user caches0 else caches0
    let cfin := caches1.getD uid default
    if !c_empty cfin then
      let pr := c_pop cfin
      (some pr.1,
       { p with cache := caches1.set uid pr.2,
                free_ids := r1.2, next_id := r2.2 })
    else
      (none, { p with cache := caches1, free_ids := r1.2, next_id := r2.2 })

/-- The flush loop of `seq_pool_free_id`:
`while (!SEQPOOL_C_EMPTY(cache))` pop into the local `nodes` array.
Defined with fuel `W`, which exceeds the cache occupancy
`csize < W` of every cache whose indices are reduced mod `W`, so the fuel
never runs out before the cache is empty. -/
def drainAux (c : SeqPoolCache) : Nat → List Nat × SeqPoolCache
  | 0 => ([], c)
  | fuel + 1 =>
    if c_empty c then ([], c)
    else
      let pr := c_pop c
      let rest := drainAux pr.2 fuel
      (pr.1 :: rest.1, rest.2)

/-- Drain a cache completely, returning the popped IDs in pop order. -/
def drain (c : SeqPoolCache) : List Nat × SeqPoolCache := drainAux c W

/-- `seq_pool_free_id(pool, uid, id)`.  The range guard compares against
the `uint32_t` sum `pool->base + pool->n_ids`.  On the flush path the C
code collects the drained IDs followed by the newly freed one into the
local `nodes[SEQPOOL_C_SIZE + 1]` array, and its push loop
(`while (i < ARRAY_SIZE(nodes) && nodes[i] != NULL)`) appends at most
`SEQPOOL_C_SIZE + 1` nodes to the back of `free_ids`, so only the first
`SEQPOOL_C_SIZE + 1` collected IDs are kept; a drain of more than
`SEQPOOL_C_SIZE` IDs writes past the end of the array in C, and the
model gives those executions the capped-append semantics of the push
loop, discarding the IDs collected beyond the array bound. -/
def seq_pool_free_id (p : SeqPool) (uid0 id : Nat) : SeqPool :=
  if id < p.base || decide (id ≥ (p.base + p.n_ids) % W) then p
  else
    let uid := uid0 % p.nb_user
    let cache := p.cache.getD uid default
    if !c_full cache then
      { p with cache := p.cache.set uid (c_add cache id) }
    else
      let dr := drain cache
      { p with cache := p.cache.set uid dr.2,
               free_ids := p.free_ids ++ (dr.1 ++ [id]).take (SEQPOOL_C_SIZE + 1) }

/-- Operations a client can perform on a pool after creation. -/
inductive Op where
  | new (uid : Nat)
  | free (uid : Nat) (id : Nat)
  deriving Repr, DecidableEq

/-- Run one operation; `new` records its out-parameter result, `free`
records `none`. -/
def runOp (p : SeqPool) : Op → SeqPool × Option Nat
  | Op.new uid => let r := seq_pool_new_id p uid; (r.2, r.1)
  | Op.free uid id => (seq_pool_free_id p uid id, none)

/-- Run a trace of operations, collecting one output slot per operation. -/
def run (p : SeqPool) : List Op → SeqPool × List (Option Nat)
  | [] => (p, [])
  | op :: ops =>
    let r := runOp p op
    let rest := run r.1 ops
    (rest.1, r.2 :: rest.2)

end SeqPoolModel

namespace LlringModel

open SeqPoolModel (W)

/-- `struct llring` together with its backing node array: `seqs` and
`datas` are the per-slot `seq` and `data` fields of `nodes[]` (the caller
allocates the nodes; the model starts their `data` fields at 0, which the
ring never reads before writing). -/
structure Llring where
  head : Nat
  tail : Nat
  mask : Nat
  seqs : List Nat
  datas : List Nat
  deriving Repr, DecidableEq

/-- `IS_POW2(x)`: `((x) && !((x) & ((x) - 1)))`. -/
def IS_POW2 (x : Nat) : Bool := x != 0 && (x &&& (x - 1)) == 0

/-- `llring_init(r, nodes, size)`: fails (returns -1, here `none`) when
`size < 2 || !IS_POW2(size)`; otherwise sets `mask = size - 1`,
`seq[i] = i` for `i < size` and `head = tail = 0`. -/
def llring_init (size : Nat) : Option Llring :=
  if size < 2 || !IS_POW2 size then none
  else some { head := 0, tail := 0, mask := size - 1,
              seqs := List.range size,
              datas := List.replicate size 0 }

/-- `llring_enqueue(r, data)`, sequential semantics: one pass of the CAS
loop in which the CAS succeeds.  `diff = (int64_t)seq - (int64_t)pos` with
both operands below `2^32`, so `diff == 0` is `seq = pos` and `diff < 0`
is `seq < pos`.  The `diff > 0` branch re-reads `head`, which in a
sequential execution yields the same `pos` and spins forever; it is
modelled as `none` (it is unreachable in sequential runs). -/
def llring_enqueue (r : Llring) (data : Nat) : Option (Bool × Llring) :=
  let pos := r.head
  let idx := pos &&& r.mask
  let seq := r.seqs.getD idx 0
  if seq == pos then
    some (true, { r with head := (pos + 1) % W,
                         datas := r.datas.set idx data,
                         seqs := r.seqs.set idx ((pos + 1) % W) })
  else if seq < pos then some (false, r)
  else none

/-- `llring_dequeue(r, data)`, sequential semantics.  Here
`diff = (int64_t)seq - (int64_t)(pos + 1)` where `pos + 1` is a `uint32_t`
sum; success stores `seq = pos + mask + 1` (i.e. `pos + capacity`) into
the slot.  Returns the flag and, on success, the dequeued payload. -/
def llring_dequeue (r : Llring) : Option ((Bool × Option Nat) × Llring) :=
  let pos := r.tail
  let idx := pos &&& r.mask
  let seq := r.seqs.getD idx 0
  let posp := (pos + 1) % W
  if seq == posp then
    some ((true, some (r.datas.getD idx 0)),
          { r with tail := posp,
                   seqs := r.seqs.set idx ((pos + r.mask + 1) % W) })
  else if seq < posp then some ((false, none), r)
  else none

/-- Ring operations for trace running. -/
inductive LOp where
  | enq (data : Nat)
  | deq
  deriving Repr, DecidableEq

/-- Run one ring operation, keeping the success flag and any dequeued
payload; `none` propagates the sequential-spin case. -/
def lstep (r : Llring) : LOp → Option ((Bool × Option Nat) × Llring)
  | LOp.enq d => (llring_enqueue r d).map (fun pr => ((pr.1, none), pr.2))
  | LOp.deq => llring_dequeue r

/-- Run a trace of ring operations; `none` if any step would spin. -/
def lrun (r : Llring) : List LOp → Option (List (Bool × Option Nat) × Llring)
  | [] => some ([], r)
  | op :: ops => do
    let s ← lstep r op
    let rest ← lrun s.2 ops
    pure (s.1 :: rest.1, rest.2)

end LlringModel

namespace SeqPoolModel

/-- Recognise allocation operations in a trace. -/
def Op.isNew : Op → Bool
  | Op.new _ => true
  | Op.free _ _ => false

/-- Pool for the duplicate-ID trace: 34 users, IDs `[0, 1056)`. -/
def c1_pool : SeqPool := (seq_pool_create 34 0 1056).getD default

/-- Trace for the duplicate-ID run: users 1..33 each allocate once, which
fills each of their caches from the cursor and exhausts it; then user 0
allocates 33 times.  Its first allocation steals one ID from each of the
33 non-empty peers into its own (empty, capacity-32) cache, whose 33rd
`SEQPOOL_C_ADD` overwrites the first stolen ID. -/
def c1_ops : List Op :=
  ((List.range 33).map (fun i => Op.new (i + 1))) ++ List.replicate 33 (Op.new 0)

end SeqPoolModel

namespace SeqPoolModel

/-- Pool for the cache-overgrowth trace: 35 users, IDs `[0, 1088)`. -/
def c10_pool : SeqPool := (seq_pool_create 35 0 1088).getD default

/-- Trace for the cache-overgrowth run: users 1..34 each allocate once
(filling their caches and exhausting the cursor), then user 0 allocates,
stealing one ID from each of the 34 non-empty peers into its own
capacity-32 cache. -/
def c10_ops : List Op :=
  ((List.range 34).map (fun i => Op.new (i + 1))) ++ [Op.new 0]

/-- Pool for the conservation-breaking trace: 35 users, IDs `[0, 1088)`. -/
def c6_pool : SeqPool := (seq_pool_create 35 0 1088).getD default

/-- Trace for the conservation-breaking run: the 35 allocations of the
cache-overgrowth trace (leaving user 0's cache at occupancy 33 with the
35 IDs `32*k` for `k < 34` and `1025` outstanding), then all 35 issued
IDs are returned through user 0.  The first 31 frees raise user 0's
cache occupancy to 64; the 32nd finds it `SEQPOOL_C_FULL` and flushes,
draining 64 IDs plus the freed one into the 33-entry `nodes` array. -/
def c6_ops : List Op :=
  ((List.range 34).map (fun i => Op.new (i + 1))) ++ [Op.new 0]
    ++ ((List.range 34).map (fun k => Op.free 0 (32 * k))) ++ [Op.free 0 1025]

/-- Whether an ID lies in the pool range `[base, base + n_ids)`. -/
def id_in_range (base n_ids id : Nat) : Prop := base ≤ id ∧ id < base + n_ids

instance (base n_ids id : Nat) : Decidable (id_in_range base n_ids id) := by
  unfold id_in_range; infer_instance

/-- Ghost-instrumented pool state for the conservation property: `issued`
is the multiset (as a list) of IDs handed out by successful
`seq_pool_new_id` calls and not yet passed back to `seq_pool_free_id`;
`legal` records that every in-range free so far returned an ID that was
outstanding at the time of the call. -/
structure GState where
  pool : SeqPool
  issued : List Nat
  legal : Bool
  deriving Repr, DecidableEq

/-- Instrumented execution of one operation. -/
def gstep (s : GState) : Op → GState
  | Op.new uid =>
    let r := seq_pool_new_id s.pool uid
    { pool := r.2,
      issued := match r.1 with
        | some id => id :: s.issued
        | none => s.issued,
      legal := s.legal }
  | Op.free uid id =>
    if id < s.pool.base || decide (id ≥ (s.pool.base + s.pool.n_ids) % W) then
      { pool := seq_pool_free_id s.pool uid id, issued := s.issued,
        legal := s.legal }
    else
      { pool := seq_pool_free_id s.pool uid id, issued := s.issued.erase id,
        legal := s.legal && decide (id ∈ s.issued) }

/-- Instrumented execution of a trace. -/
def grun (s : GState) : List Op → GState
  | [] => s
  | op :: ops => grun (gstep s op) ops

/-- Total number of IDs held in the per-user caches of a pool. -/
def sum_cached (p : SeqPool) : Nat := (p.cache.map csize).sum

end SeqPoolModel

namespace SeqPoolModel

/-- Structural well-formedness of a cache: indices reduced mod `W` and the
backing array has exactly `SEQPOOL_C_SIZE` slots. -/
def cache_wf (c : SeqPoolCache) : Prop :=
  c.head < W ∧ c.tail < W ∧ c.ids.length = SEQPOOL_C_SIZE

/-- All IDs currently held in a cache (the pending window of its ring) lie
in the pool range. -/
def cache_inv (base n_ids : Nat) (c : SeqPoolCache) : Prop :=
  ∀ k, k < SEQPOOL_C_SIZE → k < csize c →
    id_in_range base n_ids (c.ids.getD ((c.tail + k) % SEQPOOL_C_SIZE) 0)

/-- Pool invariant for the range property: structural well-formedness plus
all IDs stored in caches and in the free list lie in `[base, base + n_ids)`
and the cursor stays within the range. -/
def pool_inv (p : SeqPool) : Prop :=
  1 ≤ p.nb_user ∧ p.base + p.n_ids < W ∧
  p.cache.length = p.nb_user ∧
  (∀ c ∈ p.cache, cache_wf c ∧ cache_inv p.base p.n_ids c) ∧
  (∀ id ∈ p.free_ids, id_in_range p.base p.n_ids id) ∧
  p.base ≤ p.next_id ∧ p.next_id ≤ p.base + p.n_ids

end SeqPoolModel

namespace SeqPoolModel

theorem W_eq : W = 4294967296 := by norm_num [W]

theorem usub_mod_spec (h t : Nat) (hh : h < W) (ht : t < W) :
    (h + W - t) % W = if t ≤ h then h - t else h + W - t := by
  rcases le_or_lt t h with hle | hlt
  · have h1 : h + W - t = W + (h - t) := by omega
    rw [h1, Nat.add_mod_left, Nat.mod_eq_of_lt (by omega)]
    simp [hle]
  · rw [Nat.mod_eq_of_lt (by omega)]
    simp [Nat.not_le.mpr hlt]

theorem masked_eq (u : Nat) : SEQPOOL_C_MASKED u = u % 32 := rfl

theorem mod_W_mod32 (x : Nat) : x % W % 32 = x % 32 :=
  Nat.mod_mod_of_dvd x ⟨134217728, by norm_num [W]⟩

theorem csize_lt (c : SeqPoolCache) : csize c < W := by
  unfold csize
  exact Nat.mod_lt _ (by norm_num [W])

theorem csize_spec (c : SeqPoolCache) (hh : c.head < W) (ht : c.tail < W) :
    csize c = if c.tail ≤ c.head then c.head - c.tail else c.head + W - c.tail :=
  usub_mod_spec c.head c.tail hh ht

theorem csize_eq_zero_iff (c : SeqPoolCache) (hh : c.head < W) (ht : c.tail < W) :
    csize c = 0 ↔ c.head = c.tail := by
  rw [csize_spec c hh ht]
  split <;> omega

theorem c_empty_iff (c : SeqPoolCache) : c_empty c = true ↔ c.head = c.tail := by
  simp [c_empty]

theorem c_add_head (c : SeqPoolCache) (u : Nat) : (c_add c u).head = (c.head + 1) % W := rfl
theorem c_add_tail (c : SeqPoolCache) (u : Nat) : (c_add c u).tail = c.tail := rfl
theorem c_pop_head (c : SeqPoolCache) : (c_pop c).2.head = c.head := rfl
theorem c_pop_tail (c : SeqPoolCache) : (c_pop c).2.tail = (c.tail + 1) % W := rfl

theorem c_add_head_lt (c : SeqPoolCache) (u : Nat) : (c_add c u).head < W :=
  Nat.mod_lt _ (by norm_num [W])

theorem c_pop_tail_lt (c : SeqPoolCache) : (c_pop c).2.tail < W :=
  Nat.mod_lt _ (by norm_num [W])

theorem csize_add (c : SeqPoolCache) (u : Nat) (hh : c.head < W) (ht : c.tail < W)
    (hb : csize c + 1 < W) : csize (c_add c u) = csize c + 1 := by
  have hs := csize_spec c hh ht
  have hs2 := csize_spec (c_add c u) (c_add_head_lt c u) (by rw [c_add_tail]; exact ht)
  rw [c_add_head, c_add_tail] at hs2
  rw [hs] at hb
  rcases Nat.lt_or_ge (c.head + 1) W with hlt | hge
  · rw [Nat.mod_eq_of_lt hlt] at hs2
    rw [hs2, hs]
    split_ifs at hb ⊢ <;> omega
  · have hWe : c.head + 1 = W := by omega
    rw [hWe, Nat.mod_self] at hs2
    rw [hs2, hs]
    split_ifs at hb ⊢ <;> omega

theorem csize_pop (c : SeqPoolCache) (hh : c.head < W) (ht : c.tail < W)
    (h0 : 0 < csize c) : csize (c_pop c).2 = csize c - 1 := by
  have hs := csize_spec c hh ht
  have hs2 := csize_spec (c_pop c).2 (by rw [c_pop_head]; exact hh) (c_pop_tail_lt c)
  rw [c_pop_head, c_pop_tail] at hs2
  rw [hs] at h0
  rcases Nat.lt_or_ge (c.tail + 1) W with hlt | hge
  · rw [Nat.mod_eq_of_lt hlt] at hs2
    rw [hs2, hs]
    split_ifs at h0 ⊢ <;> omega
  · have hWe : c.tail + 1 = W := by omega
    rw [hWe, Nat.mod_self] at hs2
    rw [hs2, hs]
    split_ifs at h0 ⊢ <;> omega

theorem head_mod32 (c : SeqPoolCache) (hh : c.head < W) (ht : c.tail < W) :
    c.head % 32 = (c.tail + csize c) % 32 := by
  rw [csize_spec c hh ht]
  rcases le_or_lt c.tail c.head with hle | hlt
  · rw [if_pos hle]
    congr 1
    omega
  · rw [if_neg (Nat.not_le.mpr hlt)]
    have h1 : c.tail + (c.head + W - c.tail) = c.head + 32 * 134217728 := by
      have : W = 32 * 134217728 := by norm_num [W]
      omega
    rw [h1, Nat.add_mul_mod_self_left]

end SeqPoolModel

namespace SeqPoolModel

theorem list_getD_set_self {α : Type} (x d : α) : ∀ (l : List α) (i : Nat), i < l.length →
    (l.set i x).getD i d = x := by
  intro l
  induction l with
  | nil => intro i h; simp at h
  | cons a t ih =>
    intro i h
    cases i with
    | zero => simp
    | succ j => simpa using ih j (by simpa using h)

theorem list_getD_set_ne {α : Type} (x d : α) : ∀ (l : List α) (i j : Nat), i ≠ j →
    (l.set i x).getD j d = l.getD j d := by
  intro l
  induction l with
  | nil => intro i j h; simp
  | cons a t ih =>
    intro i j h
    cases i with
    | zero => cases j with
      | zero => exact absurd rfl h
      | succ k => simp
    | succ i2 => cases j with
      | zero => simp
      | succ k => simpa using ih i2 k (by omega)

theorem list_getD_mem {α : Type} (d : α) : ∀ (l : List α) (i : Nat), i < l.length →
    l.getD i d ∈ l := by
  intro l
  induction l with
  | nil => intro i h; simp at h
  | cons a t ih =>
    intro i h
    cases i with
    | zero => simp
    | succ j => simpa using Or.inr (ih j (by simpa using h))

theorem sum_map_set {α : Type} (f : α → Nat) (x d : α) : ∀ (l : List α) (i : Nat), i < l.length →
    ((l.set i x).map f).sum + f (l.getD i d) = (l.map f).sum + f x := by
  intro l
  induction l with
  | nil => intro i h; simp at h
  | cons a t ih =>
    intro i h
    cases i with
    | zero => simp; omega
    | succ j =>
      have := ih j (by simpa using h)
      simp only [List.set, List.getD_cons_succ, List.map_cons, List.sum_cons]
      omega

theorem getD_map_le_sum {α : Type} (f : α → Nat) (d : α) : ∀ (l : List α) (i : Nat), i < l.length →
    f (l.getD i d) ≤ (l.map f).sum := by
  intro l
  induction l with
  | nil => intro i h; simp at h
  | cons a t ih =>
    intro i h
    cases i with
    | zero => simp
    | succ j =>
      have := ih j (by simpa using h)
      simp only [List.getD_cons_succ, List.map_cons, List.sum_cons]
      omega

end SeqPoolModel

namespace SeqPoolModel

theorem c_add_ids (c : SeqPoolCache) (u : Nat) :
    (c_add c u).ids = c.ids.set (SEQPOOL_C_MASKED c.head) u := rfl
theorem c_pop_ids (c : SeqPoolCache) : (c_pop c).2.ids = c.ids := rfl
theorem c_pop_val (c : SeqPoolCache) :
    (c_pop c).1 = c.ids.getD (SEQPOOL_C_MASKED c.tail) 0 := rfl

theorem csize_add_wrap (c : SeqPoolCache) (u : Nat) (hh : c.head < W) (ht : c.tail < W)
    (hb : csize c + 1 = W) : csize (c_add c u) = 0 := by
  have hs := csize_spec c hh ht
  have hs2 := csize_spec (c_add c u) (c_add_head_lt c u) (by rw [c_add_tail]; exact ht)
  rw [c_add_head, c_add_tail] at hs2
  rw [hs] at hb
  rcases Nat.lt_or_ge (c.head + 1) W with hlt | hge
  · rw [Nat.mod_eq_of_lt hlt] at hs2
    rw [hs2]
    split_ifs at hb ⊢ <;> omega
  · have hWe : c.head + 1 = W := by omega
    rw [hWe, Nat.mod_self] at hs2
    rw [hs2]
    split_ifs at hb ⊢ <;> omega

theorem add_mod32_reduce (a b : Nat) : (a % W + b) % 32 = (a + b) % 32 := by
  rw [Nat.add_mod, mod_W_mod32, ← Nat.add_mod]

theorem size32 : SEQPOOL_C_SIZE = 32 := rfl

theorem masked_lt (u : Nat) : SEQPOOL_C_MASKED u < SEQPOOL_C_SIZE := by
  rw [masked_eq, size32]
  exact Nat.mod_lt _ (by norm_num)

theorem cache_inv_add (c : SeqPoolCache) (v base n_ids : Nat) (hwf : cache_wf c)
    (hinv : cache_inv base n_ids c) (hv : id_in_range base n_ids v) :
    cache_inv base n_ids (c_add c v) := by
  obtain ⟨hh, ht, hlen⟩ := hwf
  intro k hk32 hkcs
  simp only [c_add_tail, c_add_ids]
  rcases Nat.lt_or_ge (csize c + 1) W with hcs | hcs
  · rw [csize_add c v hh ht hcs] at hkcs
    by_cases heq : (c.tail + k) % SEQPOOL_C_SIZE = SEQPOOL_C_MASKED c.head
    · rw [heq, list_getD_set_self v 0 c.ids _ (by rw [hlen]; exact masked_lt c.head)]
      exact hv
    · rw [list_getD_set_ne v 0 c.ids _ _ (Ne.symm heq)]
      apply hinv k hk32
      rcases Nat.lt_or_ge k (csize c) with h1 | h2
      · exact h1
      · exfalso
        apply heq
        have hk : k = csize c := by omega
        rw [hk, size32, masked_eq, head_mod32 c hh ht]
  · have hmax : csize c + 1 = W := by have := csize_lt c; omega
    rw [csize_add_wrap c v hh ht hmax] at hkcs
    omega

theorem cache_inv_pop_val (c : SeqPoolCache) (base n_ids : Nat) (_hwf : cache_wf c)
    (h0 : 0 < csize c) (hinv : cache_inv base n_ids c) :
    id_in_range base n_ids (c_pop c).1 := by
  rw [c_pop_val]
  have := hinv 0 (by rw [size32]; norm_num) h0
  simpa [masked_eq, size32] using this

theorem cache_inv_pop (c : SeqPoolCache) (base n_ids : Nat) (hwf : cache_wf c)
    (h0 : 0 < csize c) (hinv : cache_inv base n_ids c) :
    cache_inv base n_ids (c_pop c).2 := by
  obtain ⟨hh, ht, hlen⟩ := hwf
  intro k hk32 hkcs
  rw [csize_pop c hh ht h0] at hkcs
  simp only [c_pop_tail, c_pop_ids]
  rw [size32, add_mod32_reduce]
  rcases Nat.lt_or_ge (k + 1) 32 with hlt | hge
  · have := hinv (k + 1) (by rw [size32]; exact hlt) (by omega)
    rw [size32] at this
    have harith : (c.tail + 1 + k) % 32 = (c.tail + (k + 1)) % 32 := by ring_nf
    rw [harith]
    exact this
  · have hk31 : k = 31 := by rw [size32] at hk32; omega
    have := hinv 0 (by rw [size32]; norm_num) h0
    rw [size32] at this
    have harith : (c.tail + 1 + k) % 32 = (c.tail + 0) % 32 := by
      rw [hk31]
      have : c.tail + 1 + 31 = c.tail + 32 := by ring
      rw [this, Nat.add_mod_right, Nat.add_zero]
    rw [harith]
    exact this

theorem cache_wf_add (c : SeqPoolCache) (u : Nat) (hwf : cache_wf c) :
    cache_wf (c_add c u) := by
  obtain ⟨hh, ht, hlen⟩ := hwf
  exact ⟨c_add_head_lt c u, by rw [c_add_tail]; exact ht,
         by rw [c_add_ids, List.length_set]; exact hlen⟩

theorem cache_wf_pop (c : SeqPoolCache) (hwf : cache_wf c) :
    cache_wf (c_pop c).2 := by
  obtain ⟨hh, ht, hlen⟩ := hwf
  exact ⟨by rw [c_pop_head]; exact hh, c_pop_tail_lt c, by rw [c_pop_ids]; exact hlen⟩

theorem cache_wf_empty : cache_wf emptyCache := by
  refine ⟨by norm_num [emptyCache, W], by norm_num [emptyCache, W], ?_⟩
  simp [emptyCache]

theorem csize_empty : csize emptyCache = 0 := by
  simp [csize, emptyCache]

theorem cache_inv_empty (base n_ids : Nat) : cache_inv base n_ids emptyCache := by
  intro k hk32 hkcs
  rw [csize_empty] at hkcs
  omega

theorem c_empty_false_pos (c : SeqPoolCache) (hh : c.head < W) (ht : c.tail < W)
    (hne : c_empty c = false) : 0 < csize c := by
  simp only [c_empty, beq_eq_false_iff_ne, ne_eq] at hne
  have := csize_eq_zero_iff c hh ht
  omega

end SeqPoolModel

namespace SeqPoolModel

theorem refill_free_inv (base n_ids : Nat) :
    ∀ (free : List Nat) (c : SeqPoolCache), cache_wf c → cache_inv base n_ids c →
    (∀ id ∈ free, id_in_range base n_ids id) →
    cache_wf (refill_free c free).1 ∧ cache_inv base n_ids (refill_free c free).1 ∧
    (∀ id ∈ (refill_free c free).2, id_in_range base n_ids id) := by
  intro free
  induction free with
  | nil =>
    intro c hwf hinv hfree
    exact ⟨hwf, hinv, by simp [refill_free]⟩
  | cons a rest ih =>
    intro c hwf hinv hfree
    by_cases hf : c_full c
    · simp only [refill_free, if_pos hf]
      exact ⟨hwf, hinv, hfree⟩
    · simp only [refill_free, if_neg hf]
      exact ih (c_add c a) (cache_wf_add c a hwf)
        (cache_inv_add c a base n_ids hwf hinv (hfree a (by simp)))
        (fun id hid => hfree id (by simp [hid]))

theorem refill_next_go_inv (base n_ids : Nat) :
    ∀ (fuel : Nat) (c : SeqPoolCache) (next : Nat), cache_wf c → cache_inv base n_ids c →
    base ≤ next → next + fuel ≤ base + n_ids →
    cache_wf (refill_next_go c next fuel).1 ∧
    cache_inv base n_ids (refill_next_go c next fuel).1 ∧
    base ≤ (refill_next_go c next fuel).2 ∧
    (refill_next_go c next fuel).2 ≤ next + fuel := by
  intro fuel
  induction fuel with
  | zero =>
    intro c next hwf hinv hlo hhi
    exact ⟨hwf, hinv, hlo, by simp [refill_next_go]⟩
  | succ f ih =>
    intro c next hwf hinv hlo hhi
    by_cases hf : c_full c
    · simp only [refill_next_go, if_pos hf]
      exact ⟨hwf, hinv, hlo, by omega⟩
    · simp only [refill_next_go, if_neg hf]
      have hr : id_in_range base n_ids next := ⟨hlo, by omega⟩
      have := ih (c_add c next) (next + 1) (cache_wf_add c next hwf)
        (cache_inv_add c next base n_ids hwf hinv hr) (by omega) (by omega)
      exact ⟨this.1, this.2.1, this.2.2.1, by omega⟩

theorem drainAux_inv (base n_ids : Nat) :
    ∀ (fuel : Nat) (c : SeqPoolCache), cache_wf c → cache_inv base n_ids c →
    cache_wf (drainAux c fuel).2 ∧ cache_inv base n_ids (drainAux c fuel).2 ∧
    (∀ v ∈ (drainAux c fuel).1, id_in_range base n_ids v) := by
  intro fuel
  induction fuel with
  | zero =>
    intro c hwf hinv
    exact ⟨hwf, hinv, by simp [drainAux]⟩
  | succ f ih =>
    intro c hwf hinv
    by_cases he : c_empty c
    · simp only [drainAux, if_pos he]
      exact ⟨hwf, hinv, by simp⟩
    · simp only [drainAux, if_neg he]
      have h0 : 0 < csize c :=
        c_empty_false_pos c hwf.1 hwf.2.1 (by simpa using he)
      have hval := cache_inv_pop_val c base n_ids hwf h0 hinv
      have := ih (c_pop c).2 (cache_wf_pop c hwf) (cache_inv_pop c base n_ids hwf h0 hinv)
      refine ⟨this.1, this.2.1, ?_⟩
      intro v hv
      simp only [List.mem_cons] at hv
      rcases hv with rfl | hv
      · exact hval
      · exact this.2.2 v hv

theorem c_empty_default : c_empty (default : SeqPoolCache) = true := rfl

theorem steal_one_inv (base n_ids uid i : Nat) (caches : List SeqPoolCache)
    (hlen : uid < caches.length)
    (hall : ∀ c ∈ caches, cache_wf c ∧ cache_inv base n_ids c) :
    (steal_one uid i caches).length = caches.length ∧
    (∀ c ∈ steal_one uid i caches, cache_wf c ∧ cache_inv base n_ids c) := by
  unfold steal_one
  by_cases hui : (i == uid) = true
  · simp only [if_pos hui]
    exact ⟨by simp, hall⟩
  · simp only [if_neg hui]
    by_cases hemp : c_empty (caches.getD i default) = true
    · simp only [if_pos hemp]
      exact ⟨by simp, hall⟩
    · simp only [if_neg hemp, if_neg hemp]
      have hib : i < caches.length := by
        by_contra hge
        have : caches.getD i default = default :=
          List.getD_eq_default _ _ (by omega)
        rw [this, c_empty_default] at hemp
        exact hemp rfl
      have hc2 : caches.getD i default ∈ caches := list_getD_mem default caches i hib
      have hc2p := hall _ hc2
      have h0 : 0 < csize (caches.getD i default) :=
        c_empty_false_pos _ hc2p.1.1 hc2p.1.2.1 (by simpa using hemp)
      have hown : caches.getD uid default ∈ caches := list_getD_mem default caches uid hlen
      have hownp := hall _ hown
      have hval := cache_inv_pop_val _ base n_ids hc2p.1 h0 hc2p.2
      constructor
      · simp [List.length_set]
      · intro c hc
        rcases List.mem_or_eq_of_mem_set hc with hc | rfl
        · rcases List.mem_or_eq_of_mem_set hc with hc | rfl
          · exact hall c hc
          · exact ⟨cache_wf_pop _ hc2p.1, cache_inv_pop _ base n_ids hc2p.1 h0 hc2p.2⟩
        · exact ⟨cache_wf_add _ _ hownp.1,
                 cache_inv_add _ _ base n_ids hownp.1 hownp.2 hval⟩

theorem steal_fold_inv (base n_ids uid : Nat) :
    ∀ (L : List Nat) (caches : List SeqPoolCache), uid < caches.length →
    (∀ c ∈ caches, cache_wf c ∧ cache_inv base n_ids c) →
    (L.foldl (fun cs i => steal_one uid i cs) caches).length = caches.length ∧
    (∀ c ∈ L.foldl (fun cs i => steal_one uid i cs) caches,
      cache_wf c ∧ cache_inv base n_ids c) := by
  intro L
  induction L with
  | nil => intro caches hlen hall; exact ⟨rfl, hall⟩
  | cons i rest ih =>
    intro caches hlen hall
    have h1 := steal_one_inv base n_ids uid i caches hlen hall
    have h2 := ih (steal_one uid i caches) (by omega) h1.2
    simp only [List.foldl_cons]
    exact ⟨by omega, h2.2⟩

theorem steal_all_inv (base n_ids uid nb : Nat) (caches : List SeqPoolCache)
    (hlen : uid < caches.length)
    (hall : ∀ c ∈ caches, cache_wf c ∧ cache_inv base n_ids c) :
    (steal_all uid nb caches).length = caches.length ∧
    (∀ c ∈ steal_all uid nb caches, cache_wf c ∧ cache_inv base n_ids c) :=
  steal_fold_inv base n_ids uid (List.range nb) caches hlen hall

end SeqPoolModel

namespace SeqPoolModel

theorem new_id_const (p : SeqPool) (uid0 : Nat) :
    (seq_pool_new_id p uid0).2.base = p.base ∧
    (seq_pool_new_id p uid0).2.n_ids = p.n_ids ∧
    (seq_pool_new_id p uid0).2.nb_user = p.nb_user := by
  simp only [seq_pool_new_id, apply_ite Prod.snd, apply_ite SeqPool.base,
    apply_ite SeqPool.n_ids, apply_ite SeqPool.nb_user]
  simp

theorem free_id_const (p : SeqPool) (uid0 id : Nat) :
    (seq_pool_free_id p uid0 id).base = p.base ∧
    (seq_pool_free_id p uid0 id).n_ids = p.n_ids ∧
    (seq_pool_free_id p uid0 id).nb_user = p.nb_user := by
  simp only [seq_pool_free_id, apply_ite SeqPool.base,
    apply_ite SeqPool.n_ids, apply_ite SeqPool.nb_user]
  simp

end SeqPoolModel

namespace SeqPoolModel

theorem new_id_inv (p : SeqPool) (uid0 : Nat) (hp : pool_inv p) :
    pool_inv (seq_pool_new_id p uid0).2 ∧
    ∀ x, (seq_pool_new_id p uid0).1 = some x → id_in_range p.base p.n_ids x := by
  obtain ⟨hnb, hWb, hlen, hcaches, hfree, hlo, hhi⟩ := hp
  have hub : uid0 % p.nb_user < p.nb_user := Nat.mod_lt _ (by omega)
  have hmem : p.cache.getD (uid0 % p.nb_user) default ∈ p.cache :=
    list_getD_mem default _ _ (by omega)
  have hcp := hcaches _ hmem
  cases hemp : c_empty (p.cache.getD (uid0 % p.nb_user) default) with
  | false =>
    simp only [seq_pool_new_id, hemp, Bool.not_false, if_true]
    have h0 : 0 < csize (p.cache.getD (uid0 % p.nb_user) default) :=
      c_empty_false_pos _ hcp.1.1 hcp.1.2.1 hemp
    constructor
    · refine ⟨hnb, hWb, by simpa using hlen, ?_, hfree, hlo, hhi⟩
      intro c hc
      rcases List.mem_or_eq_of_mem_set hc with hc | rfl
      · exact hcaches c hc
      · exact ⟨cache_wf_pop _ hcp.1, cache_inv_pop _ _ _ hcp.1 h0 hcp.2⟩
    · intro x hx
      have hval := cache_inv_pop_val _ p.base p.n_ids hcp.1 h0 hcp.2
      simp only [Option.some.injEq] at hx
      rw [← hx]
      exact hval
  | true =>
    simp only [seq_pool_new_id, hemp, Bool.not_true, Bool.false_eq_true, if_false]
    have hmod : (p.base + p.n_ids) % W = p.base + p.n_ids := Nat.mod_eq_of_lt hWb
    rw [hmod]
    have hre := refill_free_inv p.base p.n_ids p.free_ids
      (p.cache.getD (uid0 % p.nb_user) default) hcp.1 hcp.2 hfree
    have hrn : cache_wf (refill_next (refill_free (p.cache.getD (uid0 % p.nb_user) default)
          p.free_ids).1 p.next_id (p.base + p.n_ids)).1 ∧
        cache_inv p.base p.n_ids (refill_next (refill_free (p.cache.getD (uid0 % p.nb_user) default)
          p.free_ids).1 p.next_id (p.base + p.n_ids)).1 ∧
        p.base ≤ (refill_next (refill_free (p.cache.getD (uid0 % p.nb_user) default)
          p.free_ids).1 p.next_id (p.base + p.n_ids)).2 ∧
        (refill_next (refill_free (p.cache.getD (uid0 % p.nb_user) default)
          p.free_ids).1 p.next_id (p.base + p.n_ids)).2 ≤ p.base + p.n_ids := by
      unfold refill_next
      have := refill_next_go_inv p.base p.n_ids (p.base + p.n_ids - p.next_id)
        (refill_free (p.cache.getD (uid0 % p.nb_user) default) p.free_ids).1
        p.next_id hre.1 hre.2.1 hlo (by omega)
      exact ⟨this.1, this.2.1, this.2.2.1, by omega⟩
    set r2c := (refill_next (refill_free (p.cache.getD (uid0 % p.nb_user) default)
      p.free_ids).1 p.next_id (p.base + p.n_ids)).1 with hr2c
    have hca1 :
        (if c_empty r2c = true then
            steal_all (uid0 % p.nb_user) p.nb_user (p.cache.set (uid0 % p.nb_user) r2c)
          else p.cache.set (uid0 % p.nb_user) r2c).length = p.nb_user ∧
        ∀ c ∈ (if c_empty r2c = true then
            steal_all (uid0 % p.nb_user) p.nb_user (p.cache.set (uid0 % p.nb_user) r2c)
          else p.cache.set (uid0 % p.nb_user) r2c),
          cache_wf c ∧ cache_inv p.base p.n_ids c := by
      have hset_len : (p.cache.set (uid0 % p.nb_user) r2c).length = p.nb_user := by
        simpa using hlen
      have hset_all : ∀ c ∈ p.cache.set (uid0 % p.nb_user) r2c,
          cache_wf c ∧ cache_inv p.base p.n_ids c := by
        intro c hc
        rcases List.mem_or_eq_of_mem_set hc with hc | rfl
        · exact hcaches c hc
        · exact ⟨hrn.1, hrn.2.1⟩
      by_cases hst : c_empty r2c = true
      · simp only [if_pos hst]
        have := steal_all_inv p.base p.n_ids (uid0 % p.nb_user) p.nb_user
          (p.cache.set (uid0 % p.nb_user) r2c) (by omega) hset_all
        exact ⟨by omega, this.2⟩
      · simp only [if_neg hst]
        exact ⟨hset_len, hset_all⟩
    set caches1 := (if c_empty r2c = true then
        steal_all (uid0 % p.nb_user) p.nb_user (p.cache.set (uid0 % p.nb_user) r2c)
      else p.cache.set (uid0 % p.nb_user) r2c) with hcaches1
    have hfinmem : caches1.getD (uid0 % p.nb_user) default ∈ caches1 :=
      list_getD_mem default _ _ (by omega)
    have hfinp := hca1.2 _ hfinmem
    cases hfin : c_empty (caches1.getD (uid0 % p.nb_user) default) with
    | false =>
      simp only [hfin, Bool.not_false, if_true]
      have h0 : 0 < csize (caches1.getD (uid0 % p.nb_user) default) :=
        c_empty_false_pos _ hfinp.1.1 hfinp.1.2.1 hfin
      constructor
      · refine ⟨hnb, hWb, by simpa using hca1.1, ?_, hre.2.2, hrn.2.2.1, hrn.2.2.2⟩
        intro c hc
        rcases List.mem_or_eq_of_mem_set hc with hc | rfl
        · exact hca1.2 c hc
        · exact ⟨cache_wf_pop _ hfinp.1, cache_inv_pop _ _ _ hfinp.1 h0 hfinp.2⟩
      · intro x hx
        have hval := cache_inv_pop_val _ p.base p.n_ids hfinp.1 h0 hfinp.2
        simp only [Option.some.injEq] at hx
        rw [← hx]
        exact hval
    | true =>
      simp only [hfin, Bool.not_true, Bool.false_eq_true, if_false]
      constructor
      · exact ⟨hnb, hWb, hca1.1, hca1.2, hre.2.2, hrn.2.2.1, hrn.2.2.2⟩
      · intro x hx
        simp at hx

end SeqPoolModel

namespace SeqPoolModel

theorem free_id_inv (p : SeqPool) (uid0 id : Nat) (hp : pool_inv p) :
    pool_inv (seq_pool_free_id p uid0 id) := by
  obtain ⟨hnb, hWb, hlen, hcaches, hfree, hlo, hhi⟩ := hp
  by_cases hg : (id < p.base || decide (id ≥ (p.base + p.n_ids) % W)) = true
  · simp only [seq_pool_free_id, if_pos hg]
    exact ⟨hnb, hWb, hlen, hcaches, hfree, hlo, hhi⟩
  · simp only [seq_pool_free_id, if_neg hg]
    have hmod : (p.base + p.n_ids) % W = p.base + p.n_ids := Nat.mod_eq_of_lt hWb
    have hidr : id_in_range p.base p.n_ids id := by
      simp only [Bool.or_eq_true, decide_eq_true_eq, not_or, Nat.not_lt, Nat.not_le] at hg
      rw [hmod] at hg
      exact ⟨hg.1, hg.2⟩
    have hub : uid0 % p.nb_user < p.nb_user := Nat.mod_lt _ (by omega)
    have hmem : p.cache.getD (uid0 % p.nb_user) default ∈ p.cache :=
      list_getD_mem default _ _ (by omega)
    have hcp := hcaches _ hmem
    cases hfull : c_full (p.cache.getD (uid0 % p.nb_user) default) with
    | false =>
      simp only [hfull, Bool.not_false, if_true]
      refine ⟨hnb, hWb, by simpa using hlen, ?_, hfree, hlo, hhi⟩
      intro c hc
      rcases List.mem_or_eq_of_mem_set hc with hc | rfl
      · exact hcaches c hc
      · exact ⟨cache_wf_add _ _ hcp.1, cache_inv_add _ _ _ _ hcp.1 hcp.2 hidr⟩
    | true =>
      simp only [hfull, Bool.not_true, Bool.false_eq_true, if_false, drain]
      have hdr := drainAux_inv p.base p.n_ids W
        (p.cache.getD (uid0 % p.nb_user) default) hcp.1 hcp.2
      refine ⟨hnb, hWb, by simpa using hlen, ?_, ?_, hlo, hhi⟩
      · intro c hc
        rcases List.mem_or_eq_of_mem_set hc with hc | rfl
        · exact hcaches c hc
        · exact ⟨hdr.1, hdr.2.1⟩
      · intro v hv
        rcases List.mem_append.mp hv with hv | hv
        · exact hfree v hv
        · have hv2 : v ∈ (drainAux (p.cache.getD (uid0 % p.nb_user) default)
              W).1 ++ [id] :=
            List.take_subset _ _ hv
          rcases List.mem_append.mp hv2 with hv2 | hv2
          · exact hdr.2.2 v hv2
          · rw [List.mem_singleton] at hv2
            rw [hv2]
            exact hidr

theorem create_inv (nb_user base n_ids : Nat) (p0 : SeqPool)
    (hc : seq_pool_create nb_user base n_ids = some p0) (hW : base + n_ids < W) :
    pool_inv p0 ∧ p0.base = base ∧ p0.n_ids = n_ids := by
  unfold seq_pool_create at hc
  by_cases h0 : (nb_user == 0) = true
  · rw [if_pos h0] at hc; cases hc
  · rw [if_neg h0] at hc
    by_cases h1 : base ≤ W - 1 - n_ids
    · rw [if_neg (by simp [h1])] at hc
      have hnb : 1 ≤ nb_user := by
        simp only [beq_iff_eq] at h0; omega
      cases hc
      refine ⟨⟨hnb, hW, by simp, ?_, by simp, Nat.le_refl _, by simp⟩, rfl, rfl⟩
      intro c hc2
      simp only at hc2
      have := List.eq_of_mem_replicate hc2
      rw [this]
      exact ⟨cache_wf_empty, cache_inv_empty base n_ids⟩
    · rw [if_pos (by simp [h1])] at hc; cases hc

theorem runOp_inv (p : SeqPool) (op : Op) (hp : pool_inv p) :
    pool_inv (runOp p op).1 ∧ (runOp p op).1.base = p.base ∧
    (runOp p op).1.n_ids = p.n_ids ∧
    ∀ x, (runOp p op).2 = some x → id_in_range p.base p.n_ids x := by
  cases op with
  | new uid =>
    have h := new_id_inv p uid hp
    have hc := new_id_const p uid
    simp only [runOp]
    exact ⟨h.1, hc.1, hc.2.1, h.2⟩
  | free uid id =>
    have h := free_id_inv p uid id hp
    have hc := free_id_const p uid id
    simp only [runOp]
    exact ⟨h, hc.1, hc.2.1, by intro x hx; cases hx⟩

theorem run_inv : ∀ (ops : List Op) (p : SeqPool), pool_inv p →
    ∀ o ∈ (run p ops).2, ∀ x, o = some x → id_in_range p.base p.n_ids x := by
  intro ops
  induction ops with
  | nil => intro p hp o ho; simp [run] at ho
  | cons op rest ih =>
    intro p hp o ho
    simp only [run, List.mem_cons] at ho
    have hstep := runOp_inv p op hp
    rcases ho with rfl | ho
    · exact hstep.2.2.2
    · intro x hx
      have := ih (runOp p op).1 hstep.1 o ho x hx
      rw [hstep.2.1, hstep.2.2.1] at this
      exact this

end SeqPoolModel

set_option maxRecDepth 20000

namespace SeqPoolModel

/-- C1: the claim states that an ID returned by a successful
`seq_pool_new_id` is not returned again before a `seq_pool_free_id` for it
completes.  The code violates this: on a pool of 34 users with range
`[0, 1056)`, after users 1..33 each allocate once, user 0's first
allocation steals one ID from each of the 33 non-empty peer caches; the
33rd `SEQPOOL_C_ADD` into its capacity-32 cache overwrites the slot
holding the first stolen ID with 1025, so ID 1025 is issued both by that
call (trace position 33) and again 32 allocations later (position 65),
with no `seq_pool_free_id` anywhere in the trace. -/
theorem c1_duplicate_live_id_reachable :
    (seq_pool_create 34 0 1056).isSome = true ∧
    c1_ops.all Op.isNew = true ∧
    (run c1_pool c1_ops).2.getD 33 none = some 1025 ∧
    (run c1_pool c1_ops).2.getD 65 none = some 1025 := by
  decide

/-- C2: every ID stored through the out-parameter by a successful
`seq_pool_new_id` call, in any trace of operations on a pool built by
`seq_pool_create`, lies in `[base, base + n_ids)`. -/
theorem c2_issued_ids_in_range (nb_user base n_ids : Nat) (p0 : SeqPool)
    (ops : List Op) (hc : seq_pool_create nb_user base n_ids = some p0)
    (hW : base + n_ids < W) :
    ∀ o ∈ (run p0 ops).2, ∀ x, o = some x → base ≤ x ∧ x < base + n_ids := by
  obtain ⟨hinv, hb, hn⟩ := create_inv nb_user base n_ids p0 hc hW
  intro o ho x hx
  have := run_inv ops p0 hinv o ho x hx
  rw [hb, hn] at this
  exact this

/-- Witness for C2 at a concrete pool and trace. -/
theorem c2_issued_ids_in_range_witness : 100 ≤ 100 ∧ 100 < 100 + 3 :=
  c2_issued_ids_in_range 1 100 3 ((seq_pool_create 1 100 3).getD default)
    [Op.new 0] (by decide) (by decide) (some 100) (by decide) 100 rfl

/-- C3 counterexample: the claim states the steal tier removes at most one
ID from the peer caches in total and modifies no peer cache after the
first successful steal.  On a 3-user pool where peers 1 and 2 each hold 31
IDs, user 0's allocation pops one ID from each of the two peers (both drop
to 30), so two IDs are removed in total and peer 2 is modified after the
successful steal from peer 1. -/
theorem c3_steal_takes_from_every_peer :
    csize (((run ((seq_pool_create 3 0 64).getD default)
        [Op.new 1, Op.new 2]).1.cache.getD 1 default)) = 31 ∧
    csize (((run ((seq_pool_create 3 0 64).getD default)
        [Op.new 1, Op.new 2]).1.cache.getD 2 default)) = 31 ∧
    (seq_pool_new_id (run ((seq_pool_create 3 0 64).getD default)
        [Op.new 1, Op.new 2]).1 0).1 = some 1 ∧
    csize (((seq_pool_new_id (run ((seq_pool_create 3 0 64).getD default)
        [Op.new 1, Op.new 2]).1 0).2.cache.getD 1 default)) = 30 ∧
    csize (((seq_pool_new_id (run ((seq_pool_create 3 0 64).getD default)
        [Op.new 1, Op.new 2]).1 0).2.cache.getD 2 default)) = 30 := by
  decide

end SeqPoolModel

namespace LlringModel

/-- C4: the claim (and the documentation in llring.h) require
`llring_init` to fail for every size that is not a power of two strictly
greater than 2.  The code only rejects `size < 2 || !IS_POW2(size)`, so
size 2 is accepted: `llring_init(r, nodes, 2)` returns 0 (success) and
initialises the ring, where the claim requires the invalid result -1. -/
theorem c4_llring_init_accepts_size_two :
    llring_init 2 = some { head := 0, tail := 0, mask := 1,
                           seqs := [0, 1], datas := [0, 0] } := by
  decide

end LlringModel

namespace SeqPoolModel

/-- C5 counterexample: the claim states `seq_pool_create` succeeds for
every `(base, n_ids)` with `base + n_ids ≤ 2^32` as exact integers.  At
`base = 2^32 - 4`, `n_ids = 4` we have `base + n_ids = 2^32`, yet the
assertion `base <= UINT32_MAX - n_ids` fires and creation fails. -/
theorem c5_create_rejects_sum_two_pow_32 :
    (W - 4) + 4 ≤ 2 ^ 32 ∧ seq_pool_create 1 (W - 4) 4 = none := by
  decide

/-- C5 as amended: creation succeeds (with `next_id = base`) exactly on
the domain the code accepts, `nb_user ≥ 1` and
`base + n_ids ≤ 2^32 - 1`. -/
theorem c5_create_accepts_domain (nb_user base n_ids : Nat)
    (h1 : 1 ≤ nb_user) (h2 : base + n_ids < W) :
    seq_pool_create nb_user base n_ids =
      some { next_id := base, cache := List.replicate nb_user emptyCache,
             nb_user := nb_user, free_ids := [], base := base,
             n_ids := n_ids } := by
  unfold seq_pool_create
  have hW : W = 4294967296 := by norm_num [W]
  have h0 : (nb_user == 0) = false := by simp; omega
  have hle : base ≤ W - 1 - n_ids := by omega
  simp [h0, hle]

/-- Witness for C5 as amended. -/
theorem c5_create_accepts_domain_witness :
    seq_pool_create 1 0 10 =
      some { next_id := 0, cache := List.replicate 1 emptyCache,
             nb_user := 1, free_ids := [], base := 0, n_ids := 10 } :=
  c5_create_accepts_domain 1 0 10 (by decide) (by decide)

/-- Helper for C8: the early-return guard of `seq_pool_free_id`. -/
theorem free_id_noop_of_out_of_range (p : SeqPool) (uid0 id : Nat)
    (hW : p.base + p.n_ids < W)
    (h : id < p.base ∨ p.base + p.n_ids ≤ id) :
    seq_pool_free_id p uid0 id = p := by
  have hmod : (p.base + p.n_ids) % W = p.base + p.n_ids := Nat.mod_eq_of_lt hW
  have hg : (id < p.base || decide (id ≥ (p.base + p.n_ids) % W)) = true := by
    rw [hmod]
    rcases h with h | h <;> simp [h]
  simp only [seq_pool_free_id, if_pos hg]

/-- C7: single-thread exhaustion and realloc.  On
`seq_pool_create(1, 100, 3)`, four `seq_pool_new_id(0)` calls return
true/true/true/false with outputs 100, 101, 102 (pairwise distinct, all in
`{100, 101, 102}`); then `seq_pool_free_id(0, 101)` followed by
`seq_pool_new_id(0)` succeeds with output 101. -/
theorem c7_exhaustion_and_realloc_trace :
    (run ((seq_pool_create 1 100 3).getD default)
        [Op.new 0, Op.new 0, Op.new 0, Op.new 0, Op.free 0 101, Op.new 0]).2
      = [some 100, some 101, some 102, none, none, some 101] := by
  decide

/-- C8: for every pool state and every uid, `seq_pool_free_id` with an ID
outside `[base, base + n_ids)` returns without modifying the pool, so
every subsequent operation behaves as if the call had not happened. -/
theorem c8_out_of_range_free_is_noop (p : SeqPool) (uid0 id : Nat)
    (hW : p.base + p.n_ids < W)
    (h : id < p.base ∨ p.base + p.n_ids ≤ id) :
    seq_pool_free_id p uid0 id = p ∧
    ∀ ops, run (seq_pool_free_id p uid0 id) ops = run p ops := by
  have he := free_id_noop_of_out_of_range p uid0 id hW h
  exact ⟨he, fun ops => by rw [he]⟩

/-- Witness for C8: on the exhausted 1-user pool over `[100, 103)`, frees
of 99 and 103 are no-ops and a subsequent allocation still fails. -/
theorem c8_out_of_range_free_is_noop_witness :
    seq_pool_free_id ((run ((seq_pool_create 1 100 3).getD default)
        [Op.new 0, Op.new 0, Op.new 0]).1) 0 99 =
      (run ((seq_pool_create 1 100 3).getD default)
        [Op.new 0, Op.new 0, Op.new 0]).1 :=
  (c8_out_of_range_free_is_noop _ 0 99 (by decide) (Or.inl (by decide))).1

end SeqPoolModel

namespace LlringModel

/-- C9: wrap-around FIFO trace on a capacity-4 ring: enqueue 1..4 succeed,
enqueue 5 fails, two dequeues yield 1 then 2, enqueues 5 and 6 succeed,
four dequeues yield 3, 4, 5, 6 in order. -/
theorem c9_ring_wrap_fifo_trace :
    (lrun ((llring_init 4).getD { head := 0, tail := 0, mask := 0,
                                  seqs := [], datas := [] })
        [LOp.enq 1, LOp.enq 2, LOp.enq 3, LOp.enq 4, LOp.enq 5, LOp.deq,
         LOp.deq, LOp.enq 5, LOp.enq 6, LOp.deq, LOp.deq, LOp.deq,
         LOp.deq]).map Prod.fst
      = some [(true, none), (true, none), (true, none), (true, none),
              (false, none), (true, some 1), (true, some 2), (true, none),
              (true, none), (true, some 3), (true, some 4), (true, some 5),
              (true, some 6)] := by
  decide

end LlringModel

namespace SeqPoolModel

/-- C10: the claim states every reachable cache holds at most
`SEQPOOL_C_SIZE = 32` IDs, keeping the flush path of `seq_pool_free_id`
within its `nodes[SEQPOOL_C_SIZE + 1]` array.  The code violates this: on
a 35-user pool, user 0's steal loop moves 34 IDs into its empty cache, and
after the final pop the cache still holds 33 IDs
(`head - tail = 33 > 32`). -/
theorem c10_cache_exceeds_capacity :
    (seq_pool_create 35 0 1088).isSome = true ∧
    c10_ops.all Op.isNew = true ∧
    SEQPOOL_C_SIZE < csize ((run c10_pool c10_ops).1.cache.getD 0 default) ∧
    csize ((run c10_pool c10_ops).1.cache.getD 0 default) = 33 := by
  decide

end SeqPoolModel

namespace SeqPoolModel

theorem steal_one_getD_ne (uid i j : Nat) (caches : List SeqPoolCache)
    (hj_uid : j ≠ uid) (hj_i : j ≠ i) :
    (steal_one uid i caches).getD j default = caches.getD j default := by
  unfold steal_one
  by_cases hui : (i == uid) = true
  · rw [if_pos hui]
  · rw [if_neg hui]
    by_cases hemp : c_empty (caches.getD i default) = true
    · rw [if_pos hemp]
    · rw [if_neg hemp, if_neg hemp]
      rw [list_getD_set_ne _ _ _ _ _ (Ne.symm hj_uid),
          list_getD_set_ne _ _ _ _ _ (Ne.symm hj_i)]

theorem steal_one_getD_self (uid j : Nat) (caches : List SeqPoolCache)
    (hj : j ≠ uid) :
    (steal_one uid j caches).getD j default = caches.getD j default ∨
    (c_empty (caches.getD j default) = false ∧
      (steal_one uid j caches).getD j default =
        (c_pop (caches.getD j default)).2) := by
  unfold steal_one
  have hne : (j == uid) = false := by simp [hj]
  rw [if_neg (by simp [hne])]
  by_cases hemp : c_empty (caches.getD j default) = true
  · rw [if_pos hemp]
    exact Or.inl rfl
  · rw [if_neg hemp, if_neg hemp]
    have hjb : j < caches.length := by
      by_contra hge
      have : caches.getD j default = default :=
        List.getD_eq_default _ _ (by omega)
      rw [this, c_empty_default] at hemp
      exact hemp rfl
    refine Or.inr ⟨by simpa using hemp, ?_⟩
    rw [list_getD_set_ne _ _ _ _ _ (Ne.symm hj),
        list_getD_set_self _ _ _ _ (by simpa using hjb)]

theorem steal_fold_getD_not_mem (uid j : Nat) :
    ∀ (L : List Nat) (caches : List SeqPoolCache), j ∉ L → j ≠ uid →
    ((L.foldl (fun cs i => steal_one uid i cs) caches).getD j default)
      = caches.getD j default := by
  intro L
  induction L with
  | nil => intro caches hmem hj; rfl
  | cons i rest ih =>
    intro caches hmem hj
    simp only [List.mem_cons, not_or] at hmem
    simp only [List.foldl_cons]
    rw [ih (steal_one uid i caches) hmem.2 hj,
        steal_one_getD_ne uid i j caches hj hmem.1]

theorem steal_fold_getD (uid j : Nat) :
    ∀ (L : List Nat) (caches : List SeqPoolCache), L.Nodup → j ≠ uid →
    ((L.foldl (fun cs i => steal_one uid i cs) caches).getD j default)
      = caches.getD j default ∨
    (c_empty (caches.getD j default) = false ∧
      ((L.foldl (fun cs i => steal_one uid i cs) caches).getD j default)
        = (c_pop (caches.getD j default)).2) := by
  intro L
  induction L with
  | nil => intro caches hnd hj; exact Or.inl rfl
  | cons i rest ih =>
    intro caches hnd hj
    simp only [List.nodup_cons] at hnd
    simp only [List.foldl_cons]
    by_cases hji : j = i
    · subst hji
      have hstep := steal_one_getD_self uid j caches hj
      rw [steal_fold_getD_not_mem uid j rest (steal_one uid j caches) hnd.1 hj]
      exact hstep
    · have hne := steal_one_getD_ne uid i j caches hj hji
      have := ih (steal_one uid i caches) hnd.2 hj
      rw [hne] at this
      exact this

end SeqPoolModel

namespace SeqPoolModel

/-- C3 as amended: the steal tier attempts at most one non-blocking
dequeue per peer cache, so each peer cache loses at most one ID per
`seq_pool_new_id` call (its occupancy is unchanged or drops by exactly
one); across all peers up to `nb_user - 1` IDs may move into the caller's
cache in a single call. -/
theorem c3_steal_at_most_one_per_peer (p : SeqPool) (uid0 j : Nat)
    (hlen : p.cache.length = p.nb_user)
    (hwf : ∀ c ∈ p.cache, c.head < W ∧ c.tail < W)
    (hj : j < p.nb_user) (hne : j ≠ uid0 % p.nb_user) :
    csize ((seq_pool_new_id p uid0).2.cache.getD j default)
        = csize (p.cache.getD j default) ∨
    csize ((seq_pool_new_id p uid0).2.cache.getD j default) + 1
        = csize (p.cache.getD j default) := by
  have hjb : j < p.cache.length := by omega
  have hjmem : p.cache.getD j default ∈ p.cache := list_getD_mem default _ _ hjb
  have hjwf := hwf _ hjmem
  cases hemp : c_empty (p.cache.getD (uid0 % p.nb_user) default) with
  | false =>
    simp only [seq_pool_new_id, hemp, Bool.not_false, if_true]
    left
    rw [list_getD_set_ne _ _ _ _ _ (Ne.symm hne)]
  | true =>
    simp only [seq_pool_new_id, hemp, Bool.not_true, Bool.false_eq_true, if_false]
    set r2c := (refill_next (refill_free (p.cache.getD (uid0 % p.nb_user) default)
      p.free_ids).1 p.next_id ((p.base + p.n_ids) % W)).1 with hr2c
    have hgj0 : (p.cache.set (uid0 % p.nb_user) r2c).getD j default
        = p.cache.getD j default :=
      list_getD_set_ne _ _ _ _ _ (Ne.symm hne)
    by_cases hst : c_empty r2c = true
    · simp only [if_pos hst]
      have hfold := steal_fold_getD (uid0 % p.nb_user) j (List.range p.nb_user)
        (p.cache.set (uid0 % p.nb_user) r2c) (List.nodup_range _) hne
      rw [hgj0] at hfold
      have hsteq : steal_all (uid0 % p.nb_user) p.nb_user
          (p.cache.set (uid0 % p.nb_user) r2c)
          = (List.range p.nb_user).foldl (fun cs i => steal_one (uid0 % p.nb_user) i cs)
            (p.cache.set (uid0 % p.nb_user) r2c) := rfl
      cases hfin : c_empty ((steal_all (uid0 % p.nb_user) p.nb_user
          (p.cache.set (uid0 % p.nb_user) r2c)).getD (uid0 % p.nb_user) default) with
      | false =>
        simp only [hfin, Bool.not_false, if_true]
        rw [list_getD_set_ne _ _ _ _ _ (Ne.symm hne), hsteq]
        rcases hfold with hfold | ⟨hne2, hfold⟩
        · exact Or.inl (by rw [hfold])
        · rw [hfold]
          have h0 : 0 < csize (p.cache.getD j default) :=
            c_empty_false_pos _ hjwf.1 hjwf.2 hne2
          rw [csize_pop _ hjwf.1 hjwf.2 h0]
          right
          omega
      | true =>
        simp only [hfin, Bool.not_true, Bool.false_eq_true, if_false]
        rw [hsteq]
        rcases hfold with hfold | ⟨hne2, hfold⟩
        · exact Or.inl (by rw [hfold])
        · rw [hfold]
          have h0 : 0 < csize (p.cache.getD j default) :=
            c_empty_false_pos _ hjwf.1 hjwf.2 hne2
          rw [csize_pop _ hjwf.1 hjwf.2 h0]
          right
          omega
    · simp only [if_neg hst]
      cases hfin : c_empty ((p.cache.set (uid0 % p.nb_user) r2c).getD
          (uid0 % p.nb_user) default) with
      | false =>
        simp only [hfin, Bool.not_false, if_true]
        left
        rw [list_getD_set_ne _ _ _ _ _ (Ne.symm hne), hgj0]
      | true =>
        simp only [hfin, Bool.not_true, Bool.false_eq_true, if_false]
        exact Or.inl (by rw [hgj0])

/-- Witness for C3 as amended at a concrete pool. -/
theorem c3_steal_at_most_one_per_peer_witness :
    csize ((seq_pool_new_id ((seq_pool_create 2 0 4).getD default) 0).2.cache.getD
        1 default)
      = csize (((seq_pool_create 2 0 4).getD default).cache.getD 1 default) ∨
    csize ((seq_pool_new_id ((seq_pool_create 2 0 4).getD default) 0).2.cache.getD
        1 default) + 1
      = csize (((seq_pool_create 2 0 4).getD default).cache.getD 1 default) :=
  c3_steal_at_most_one_per_peer ((seq_pool_create 2 0 4).getD default) 0 1
    (by decide) (by decide) (by decide) (by decide)

end SeqPoolModel

namespace SeqPoolModel

theorem refill_free_count :
    ∀ (free : List Nat) (c : SeqPoolCache), c.head < W → c.tail < W →
    csize c + free.length < W →
    csize (refill_free c free).1 + (refill_free c free).2.length
        = csize c + free.length ∧
    (refill_free c free).1.head < W ∧ (refill_free c free).1.tail < W := by
  intro free
  induction free with
  | nil =>
    intro c hh ht hb
    exact ⟨by simp [refill_free], hh, ht⟩
  | cons a rest ih =>
    intro c hh ht hb
    by_cases hf : c_full c
    · simp only [refill_free, if_pos hf]
      exact ⟨by simp, hh, ht⟩
    · simp only [refill_free, if_neg hf]
      have hadd : csize (c_add c a) = csize c + 1 := by
        apply csize_add c a hh ht
        simp only [List.length_cons] at hb
        omega
      have := ih (c_add c a) (c_add_head_lt c a) (by rw [c_add_tail]; exact ht)
        (by simp only [List.length_cons] at hb; omega)
      refine ⟨?_, this.2.1, this.2.2⟩
      rw [this.1, hadd]
      simp only [List.length_cons]
      omega

theorem refill_next_go_count :
    ∀ (fuel : Nat) (c : SeqPoolCache) (next : Nat), c.head < W → c.tail < W →
    csize c + fuel < W →
    csize (refill_next_go c next fuel).1 + next
        = csize c + (refill_next_go c next fuel).2 ∧
    next ≤ (refill_next_go c next fuel).2 ∧
    (refill_next_go c next fuel).2 ≤ next + fuel ∧
    (refill_next_go c next fuel).1.head < W ∧
    (refill_next_go c next fuel).1.tail < W := by
  intro fuel
  induction fuel with
  | zero =>
    intro c next hh ht hb
    exact ⟨by simp [refill_next_go], by simp [refill_next_go],
      by simp [refill_next_go], hh, ht⟩
  | succ f ih =>
    intro c next hh ht hb
    by_cases hf : c_full c
    · simp only [refill_next_go, if_pos hf]
      exact ⟨by simp, Nat.le_refl _, by omega, hh, ht⟩
    · simp only [refill_next_go, if_neg hf]
      have hadd : csize (c_add c next) = csize c + 1 :=
        csize_add c next hh ht (by omega)
      have := ih (c_add c next) (next + 1) (c_add_head_lt c next)
        (by rw [c_add_tail]; exact ht) (by omega)
      refine ⟨?_, by omega, by omega, this.2.2.2.1, this.2.2.2.2⟩
      rw [hadd] at this
      omega

theorem drainAux_count :
    ∀ (fuel : Nat) (c : SeqPoolCache), c.head < W → c.tail < W →
    csize c ≤ fuel →
    (drainAux c fuel).1.length = csize c ∧ csize (drainAux c fuel).2 = 0 ∧
    (drainAux c fuel).2.head < W ∧ (drainAux c fuel).2.tail < W := by
  intro fuel
  induction fuel with
  | zero =>
    intro c hh ht hb
    have h0 : csize c = 0 := by omega
    exact ⟨by simp [drainAux, h0], by simp [drainAux, h0], hh, ht⟩
  | succ f ih =>
    intro c hh ht hb
    by_cases he : c_empty c = true
    · have h0 : csize c = 0 := by
        rw [csize_eq_zero_iff c hh ht]
        exact (c_empty_iff c).mp he
      simp only [drainAux, if_pos he]
      exact ⟨by simp [h0], by simp [h0], hh, ht⟩
    · have h0 : 0 < csize c := c_empty_false_pos c hh ht (by simpa using he)
      simp only [drainAux, if_neg he]
      have hpop : csize (c_pop c).2 = csize c - 1 := csize_pop c hh ht h0
      have := ih (c_pop c).2 (by rw [c_pop_head]; exact hh) (c_pop_tail_lt c)
        (by omega)
      refine ⟨?_, this.2.1, this.2.2.1, this.2.2.2⟩
      simp only [List.length_cons]
      rw [this.1, hpop]
      omega

end SeqPoolModel

namespace SeqPoolModel

theorem steal_one_sum (uid i : Nat) (caches : List SeqPoolCache)
    (huid : uid < caches.length)
    (hwf : ∀ c ∈ caches, c.head < W ∧ c.tail < W)
    (hsum : (caches.map csize).sum < W) :
    ((steal_one uid i caches).map csize).sum = (caches.map csize).sum ∧
    (steal_one uid i caches).length = caches.length ∧
    (∀ c ∈ steal_one uid i caches, c.head < W ∧ c.tail < W) := by
  unfold steal_one
  by_cases hui : (i == uid) = true
  · rw [if_pos hui]
    exact ⟨rfl, rfl, hwf⟩
  · rw [if_neg hui]
    by_cases hemp : c_empty (caches.getD i default) = true
    · rw [if_pos hemp]
      exact ⟨rfl, rfl, hwf⟩
    · rw [if_neg hemp, if_neg hemp]
      dsimp only
      have hib : i < caches.length := by
        by_contra hge
        have : caches.getD i default = default :=
          List.getD_eq_default _ _ (by omega)
        rw [this, c_empty_default] at hemp
        exact hemp rfl
      have hiwf := hwf _ (list_getD_mem default caches i hib)
      have h0 : 0 < csize (caches.getD i default) :=
        c_empty_false_pos _ hiwf.1 hiwf.2 (by simpa using hemp)
      have hine : i ≠ uid := by simpa using hui
      have hpop : csize (c_pop (caches.getD i default)).2
          = csize (caches.getD i default) - 1 :=
        csize_pop _ hiwf.1 hiwf.2 h0
      have hs1 := sum_map_set csize (c_pop (caches.getD i default)).2 default
        caches i hib
      have hsum1 : (((caches.set i (c_pop (caches.getD i default)).2).map
          csize).sum) + 1 = (caches.map csize).sum := by
        rw [hpop] at hs1
        omega
      have hlen1 : uid < (caches.set i (c_pop (caches.getD i default)).2).length := by
        simpa using huid
      have hownD : (caches.set i (c_pop (caches.getD i default)).2).getD uid default
          = caches.getD uid default :=
        list_getD_set_ne _ _ _ _ _ hine
      have huwf := hwf _ (list_getD_mem default caches uid huid)
      have hole : csize ((caches.set i (c_pop (caches.getD i default)).2).getD
          uid default) ≤
          (((caches.set i (c_pop (caches.getD i default)).2).map csize).sum) :=
        getD_map_le_sum csize default _ uid hlen1
      rw [hownD] at hole
      have haddc : csize (c_add (caches.getD uid default)
            (c_pop (caches.getD i default)).1)
          = csize (caches.getD uid default) + 1 :=
        csize_add _ _ huwf.1 huwf.2 (by omega)
      have hs2 := sum_map_set csize
        (c_add (caches.getD uid default) (c_pop (caches.getD i default)).1)
        default (caches.set i (c_pop (caches.getD i default)).2) uid hlen1
      rw [hownD, haddc] at hs2
      refine ⟨by omega, by simp, ?_⟩
      intro c hc
      rcases List.mem_or_eq_of_mem_set hc with hc | rfl
      · rcases List.mem_or_eq_of_mem_set hc with hc | rfl
        · exact hwf c hc
        · exact ⟨by rw [c_pop_head]; exact hiwf.1, c_pop_tail_lt _⟩
      · exact ⟨c_add_head_lt _ _, by rw [c_add_tail]; exact huwf.2⟩

theorem steal_fold_sum (uid : Nat) :
    ∀ (L : List Nat) (caches : List SeqPoolCache), uid < caches.length →
    (∀ c ∈ caches, c.head < W ∧ c.tail < W) →
    (caches.map csize).sum < W →
    ((L.foldl (fun cs i => steal_one uid i cs) caches).map csize).sum
        = (caches.map csize).sum ∧
    (L.foldl (fun cs i => steal_one uid i cs) caches).length = caches.length ∧
    (∀ c ∈ L.foldl (fun cs i => steal_one uid i cs) caches,
      c.head < W ∧ c.tail < W) := by
  intro L
  induction L with
  | nil => intro caches hu hwf hs; exact ⟨rfl, rfl, hwf⟩
  | cons i rest ih =>
    intro caches hu hwf hs
    have h1 := steal_one_sum uid i caches hu hwf hs
    have h2 := ih (steal_one uid i caches) (by omega) h1.2.2 (by omega)
    simp only [List.foldl_cons]
    exact ⟨by omega, by omega, h2.2.2⟩

end SeqPoolModel

namespace SeqPoolModel

theorem new_id_count (p : SeqPool) (uid0 n : Nat)
    (hnb : 1 ≤ p.nb_user) (hWb : p.base + p.n_ids < W)
    (hlen : p.cache.length = p.nb_user)
    (hwf : ∀ c ∈ p.cache, c.head < W ∧ c.tail < W)
    (hlo : p.base ≤ p.next_id) (hhi : p.next_id ≤ p.base + p.n_ids)
    (E : n + sum_cached p + p.free_ids.length + p.base = p.next_id) :
    (seq_pool_new_id p uid0).2.cache.length = p.nb_user ∧
    (∀ c ∈ (seq_pool_new_id p uid0).2.cache, c.head < W ∧ c.tail < W) ∧
    p.base ≤ (seq_pool_new_id p uid0).2.next_id ∧
    (seq_pool_new_id p uid0).2.next_id ≤ p.base + p.n_ids ∧
    (if (seq_pool_new_id p uid0).1.isSome then n + 1 else n)
        + sum_cached (seq_pool_new_id p uid0).2
        + (seq_pool_new_id p uid0).2.free_ids.length + p.base
      = (seq_pool_new_id p uid0).2.next_id := by
  have hub : uid0 % p.nb_user < p.nb_user := Nat.mod_lt _ (by omega)
  have hmem : p.cache.getD (uid0 % p.nb_user) default ∈ p.cache :=
    list_getD_mem default _ _ (by omega)
  have hcw := hwf _ hmem
  unfold sum_cached at E
  cases hemp : c_empty (p.cache.getD (uid0 % p.nb_user) default) with
  | false =>
    simp only [seq_pool_new_id, hemp, Bool.not_false, if_true, sum_cached]
    have h0 : 0 < csize (p.cache.getD (uid0 % p.nb_user) default) :=
      c_empty_false_pos _ hcw.1 hcw.2 hemp
    have hpop : csize (c_pop (p.cache.getD (uid0 % p.nb_user) default)).2
        = csize (p.cache.getD (uid0 % p.nb_user) default) - 1 :=
      csize_pop _ hcw.1 hcw.2 h0
    have hole : csize (p.cache.getD (uid0 % p.nb_user) default)
        ≤ (p.cache.map csize).sum :=
      getD_map_le_sum csize default _ _ (by omega)
    have hs := sum_map_set csize
      (c_pop (p.cache.getD (uid0 % p.nb_user) default)).2 default p.cache
      (uid0 % p.nb_user) (by omega)
    refine ⟨by simpa using hlen, ?_, hlo, hhi, ?_⟩
    · intro c hc
      rcases List.mem_or_eq_of_mem_set hc with hc | rfl
      · exact hwf c hc
      · exact ⟨by rw [c_pop_head]; exact hcw.1, c_pop_tail_lt _⟩
    · simp only [Option.isSome_some, if_true]
      omega
  | true =>
    simp only [seq_pool_new_id, hemp, Bool.not_true, Bool.false_eq_true,
      if_false, steal_all, refill_next, sum_cached]
    have hmod : (p.base + p.n_ids) % W = p.base + p.n_ids := Nat.mod_eq_of_lt hWb
    rw [hmod]
    have hempz : csize (p.cache.getD (uid0 % p.nb_user) default) = 0 := by
      rw [csize_eq_zero_iff _ hcw.1 hcw.2]
      exact (c_empty_iff _).mp hemp
    have hWn : W = 4294967296 := by norm_num [W]
    have hre := refill_free_count p.free_ids
      (p.cache.getD (uid0 % p.nb_user) default) hcw.1 hcw.2 (by omega)
    have hrn := refill_next_go_count (p.base + p.n_ids - p.next_id)
      (refill_free (p.cache.getD (uid0 % p.nb_user) default) p.free_ids).1
      p.next_id hre.2.1 hre.2.2 (by omega)
    have hs0 := sum_map_set csize
      (refill_next_go (refill_free (p.cache.getD (uid0 % p.nb_user) default)
        p.free_ids).1 p.next_id (p.base + p.n_ids - p.next_id)).1
      default p.cache (uid0 % p.nb_user) (by omega)
    by_cases hst : c_empty (refill_next_go (refill_free
        (p.cache.getD (uid0 % p.nb_user) default) p.free_ids).1 p.next_id
        (p.base + p.n_ids - p.next_id)).1 = true
    · simp only [if_pos hst]
      have hwf0 : ∀ c ∈ p.cache.set (uid0 % p.nb_user)
          (refill_next_go (refill_free (p.cache.getD (uid0 % p.nb_user) default)
            p.free_ids).1 p.next_id (p.base + p.n_ids - p.next_id)).1,
          c.head < W ∧ c.tail < W := by
        intro c hc
        rcases List.mem_or_eq_of_mem_set hc with hc | rfl
        · exact hwf c hc
        · exact ⟨hrn.2.2.2.1, hrn.2.2.2.2⟩
      have hfold := steal_fold_sum (uid0 % p.nb_user) (List.range p.nb_user)
        (p.cache.set (uid0 % p.nb_user)
          (refill_next_go (refill_free (p.cache.getD (uid0 % p.nb_user) default)
            p.free_ids).1 p.next_id (p.base + p.n_ids - p.next_id)).1)
        (by simpa using (by omega : uid0 % p.nb_user < p.cache.length))
        hwf0 (by omega)
      set cs1 := (List.range p.nb_user).foldl
        (fun cs i => steal_one (uid0 % p.nb_user) i cs)
        (p.cache.set (uid0 % p.nb_user)
          (refill_next_go (refill_free (p.cache.getD (uid0 % p.nb_user) default)
            p.free_ids).1 p.next_id (p.base + p.n_ids - p.next_id)).1) with hcs1
      have hlen1 : uid0 % p.nb_user < cs1.length := by
        rw [hcs1, hfold.2.1]
        simpa using (by omega : uid0 % p.nb_user < p.cache.length)
      have hfwf : ∀ c ∈ cs1, c.head < W ∧ c.tail < W := hfold.2.2
      have hfincw := hfwf _ (list_getD_mem default cs1 _ hlen1)
      cases hfin : c_empty (cs1.getD (uid0 % p.nb_user) default) with
      | false =>
        simp only [hfin, Bool.not_false, if_true]
        have h0 : 0 < csize (cs1.getD (uid0 % p.nb_user) default) :=
          c_empty_false_pos _ hfincw.1 hfincw.2 hfin
        have hpop : csize (c_pop (cs1.getD (uid0 % p.nb_user) default)).2
            = csize (cs1.getD (uid0 % p.nb_user) default) - 1 :=
          csize_pop _ hfincw.1 hfincw.2 h0
        have hole : csize (cs1.getD (uid0 % p.nb_user) default)
            ≤ (cs1.map csize).sum :=
          getD_map_le_sum csize default _ _ hlen1
        have hs2 := sum_map_set csize
          (c_pop (cs1.getD (uid0 % p.nb_user) default)).2 default cs1
          (uid0 % p.nb_user) hlen1
        refine ⟨?_, ?_, by omega, by omega, ?_⟩
        · rw [List.length_set, hfold.2.1, List.length_set, hlen]
        · intro c hc
          rcases List.mem_or_eq_of_mem_set hc with hc | rfl
          · exact hfwf c hc
          · exact ⟨by rw [c_pop_head]; exact hfincw.1, c_pop_tail_lt _⟩
        · simp only [Option.isSome_some, if_true]
          have e1 : (List.map csize (cs1.set (uid0 % p.nb_user)
              (c_pop (cs1.getD (uid0 % p.nb_user) default)).2)).sum + 1
              = (List.map csize cs1).sum := by omega
          have e2 : (List.map csize cs1).sum
              = (List.map csize p.cache).sum
                + csize (refill_next_go (refill_free
                    (p.cache.getD (uid0 % p.nb_user) default) p.free_ids).1
                    p.next_id (p.base + p.n_ids - p.next_id)).1 := by omega
          have e3 : csize (refill_free (p.cache.getD (uid0 % p.nb_user) default)
                p.free_ids).1
              + (refill_free (p.cache.getD (uid0 % p.nb_user) default)
                p.free_ids).2.length = p.free_ids.length := by omega
          have e4 : csize (refill_next_go (refill_free
                (p.cache.getD (uid0 % p.nb_user) default) p.free_ids).1
                p.next_id (p.base + p.n_ids - p.next_id)).1 + p.next_id
              = csize (refill_free (p.cache.getD (uid0 % p.nb_user) default)
                p.free_ids).1
              + (refill_next_go (refill_free
                  (p.cache.getD (uid0 % p.nb_user) default) p.free_ids).1
                  p.next_id (p.base + p.n_ids - p.next_id)).2 := by omega
          omega
      | true =>
        simp only [hfin, Bool.not_true, Bool.false_eq_true, if_false]
        refine ⟨by rw [hfold.2.1, List.length_set, hlen], hfwf,
          by omega, by omega, ?_⟩
        simp only [Option.isSome_none, Bool.false_eq_true, if_false]
        omega
    · simp only [if_neg hst]
      have hself : (p.cache.set (uid0 % p.nb_user)
          (refill_next_go (refill_free (p.cache.getD (uid0 % p.nb_user) default)
            p.free_ids).1 p.next_id (p.base + p.n_ids - p.next_id)).1).getD
          (uid0 % p.nb_user) default
          = (refill_next_go (refill_free (p.cache.getD (uid0 % p.nb_user) default)
            p.free_ids).1 p.next_id (p.base + p.n_ids - p.next_id)).1 :=
        list_getD_set_self _ _ _ _ (by omega)
      cases hfin : c_empty ((p.cache.set (uid0 % p.nb_user)
          (refill_next_go (refill_free (p.cache.getD (uid0 % p.nb_user) default)
            p.free_ids).1 p.next_id (p.base + p.n_ids - p.next_id)).1).getD
          (uid0 % p.nb_user) default) with
      | true =>
        rw [hself] at hfin
        exact absurd hfin hst
      | false =>
        simp only [hfin, Bool.not_false, if_true]
        simp only [hself]
        rw [hself] at hfin
        have h0 : 0 < csize (refill_next_go (refill_free
            (p.cache.getD (uid0 % p.nb_user) default) p.free_ids).1 p.next_id
            (p.base + p.n_ids - p.next_id)).1 :=
          c_empty_false_pos _ hrn.2.2.2.1 hrn.2.2.2.2 hfin
        have hpop : csize (c_pop (refill_next_go (refill_free
            (p.cache.getD (uid0 % p.nb_user) default) p.free_ids).1 p.next_id
            (p.base + p.n_ids - p.next_id)).1).2
            = csize (refill_next_go (refill_free
            (p.cache.getD (uid0 % p.nb_user) default) p.free_ids).1 p.next_id
            (p.base + p.n_ids - p.next_id)).1 - 1 :=
          csize_pop _ hrn.2.2.2.1 hrn.2.2.2.2 h0
        have hlen0 : uid0 % p.nb_user < (p.cache.set (uid0 % p.nb_user)
            (refill_next_go (refill_free (p.cache.getD (uid0 % p.nb_user) default)
              p.free_ids).1 p.next_id (p.base + p.n_ids - p.next_id)).1).length := by
          simpa using (by omega : uid0 % p.nb_user < p.cache.length)
        have hs2 := sum_map_set csize
          (c_pop (refill_next_go (refill_free
            (p.cache.getD (uid0 % p.nb_user) default) p.free_ids).1 p.next_id
            (p.base + p.n_ids - p.next_id)).1).2 default
          (p.cache.set (uid0 % p.nb_user)
            (refill_next_go (refill_free (p.cache.getD (uid0 % p.nb_user) default)
              p.free_ids).1 p.next_id (p.base + p.n_ids - p.next_id)).1)
          (uid0 % p.nb_user) hlen0
        rw [hself, hpop] at hs2
        refine ⟨by simp [hlen], ?_, by omega, by omega, ?_⟩
        · intro c hc
          rcases List.mem_or_eq_of_mem_set hc with hc | rfl
          · rcases List.mem_or_eq_of_mem_set hc with hc | rfl
            · exact hwf c hc
            · exact ⟨hrn.2.2.2.1, hrn.2.2.2.2⟩
          · exact ⟨by rw [c_pop_head]; exact hrn.2.2.2.1, c_pop_tail_lt _⟩
        · simp only [Option.isSome_some, if_true]
          omega

end SeqPoolModel



namespace SeqPoolModel

/-- C6: the claim states that after equal counts of successful
`seq_pool_new_id` and in-range `seq_pool_free_id` calls, with all issued
IDs returned, the IDs held in the caches plus the nodes in `free_ids`
account for `next_id - base`.  The code violates this: on the 35-user
pool, the 35 allocations leave user 0's cache at occupancy 33 (the
unguarded steal loop, see the cache-overgrowth trace), and returning all
35 issued IDs through user 0 drives that cache to occupancy 64 before a
flush; the flush collects 65 nodes into the 33-entry
`nodes[SEQPOOL_C_SIZE + 1]` array (writing past its end) and its push
loop appends only the first 33, leaking 32 IDs.  On this trace every
free is of an outstanding ID (`legal`) and the outstanding multiset ends
empty, yet the caches and free list hold `1023 + 33 = 1056` IDs while
`next_id - base = 1088`: the claimed equation fails by the 32 leaked
IDs. -/
theorem c6_flush_cap_breaks_conservation :
    (seq_pool_create 35 0 1088).isSome = true ∧
    (grun ⟨c6_pool, [], true⟩ c6_ops).legal = true ∧
    (grun ⟨c6_pool, [], true⟩ c6_ops).issued = [] ∧
    (grun ⟨c6_pool, [], true⟩ c6_ops).pool.next_id
        - (grun ⟨c6_pool, [], true⟩ c6_ops).pool.base = 1088 ∧
    sum_cached (grun ⟨c6_pool, [], true⟩ c6_ops).pool
        + (grun ⟨c6_pool, [], true⟩ c6_ops).pool.free_ids.length = 1056 := by
  decide

end SeqPoolModel
